import Mathlib

/-!
Verification of the Inkwell decompose / patch / reassemble core.

This file gives a shallow embedding of the markup pipeline of the repository:

* `src/lib/parser.ts` — `decomposeJSX` (tolerant extraction of the working
  markup via the `return ( … ) ; }` regex or the bare-element shape test,
  cheerio-based identification of `data-inkwell-id` elements, root-level
  filtering, and the two fallback components) and `assembleJSX` (the fixed
  wrapper template).
* `src/app/api/patch/route.ts` — the `POST` patch orchestrator: component
  lookup, nested-target extraction with `className` preservation, the
  identity-preservation check, patched-code decomposition, class merging,
  the fragment-collection update and reassembly-invariant check.

Modelling conventions:

* Strings are processed as `List Char`; the `String` type appears at the
  data-model boundary (`Component`, `UIProject`) exactly where the source
  stores strings.
* The DOM produced by cheerio's `load` is modelled by the mutual inductive
  `HNode`/`HForest` below, with an explicit tolerant parser
  (`parseForest`) and serializer (`renderNode`, the model of `$.html`).
  The model covers entity-free markup.  Tag names and attribute names are
  ASCII-lower-cased at parse time, as cheerio's HTML-mode tokenizer does
  (parse5, or htmlparser2 with `lowerCaseAttributeNames` on), and
  attribute lookup (`.attr`) is case-sensitive against the stored keys —
  so the route's `className` lookups never match parsed markup, whose key
  is `classname`.
* `Math.random()`-based id generation is modelled by an injected stream
  `gen : Nat → String` of fresh tokens; `Date` timestamps by a `Nat`
  parameter `now`.
* Network and disk collaborators (`generateContent`, `sanitizeCode`,
  `loadProject`, `saveProject`) are outside the core: the patch route is
  modelled as a function of the already-loaded project and the already
  sanitized patch content, returning the response value that the route
  would serialize and (on success) persist.
-/

namespace Inkwell

/-- Whitespace characters recognised by the JavaScript `\s` class and
`String.prototype.trim` (the subset relevant to the modelled inputs). -/
def isWS (c : Char) : Bool :=
  c = ' ' || c = '\t' || c = '\n' || c = '\r' || c = '\x0b' || c = '\x0c'

/-- Model of `String.prototype.trim` on character lists. -/
def jsTrimL (l : List Char) : List Char :=
  ((l.dropWhile isWS).reverse.dropWhile isWS).reverse

/-- `pat` occurs at the start of `s` (helper for substring search). -/
def isPre : List Char → List Char → Bool
  | [], _ => true
  | _ :: _, [] => false
  | p :: ps, c :: cs => p == c && isPre ps cs

/-- `pat` occurs somewhere in `s` (model of `String.prototype.includes`). -/
def containsSub : List Char → List Char → Bool
  | [], pat => pat.isEmpty
  | c :: rest, pat => isPre pat (c :: rest) || containsSub rest pat

/-- Model of `haystack.includes(needle)` on `String`. -/
def jsIncludes (s pat : String) : Bool :=
  containsSub s.data pat.data

/-- The unit of decomposition (`Component` in `src/lib/db-models.ts`, a file
not present in the source drop; its fields are reconstructed from every use
in `parser.ts` and `route.ts` and from the spec's Fragment data model:
`id`, `name` (display name), `code` (serialized markup), `elementType`
(root tag), `lastUpdated` (timestamp, here a `Nat`)). -/
structure Component where
  id : String
  name : String
  code : String
  elementType : String
  lastUpdated : Nat
deriving DecidableEq, Repr

/-- One entry of a project's history log (fields as used in `route.ts`). -/
structure HistoryEntry where
  timestamp : Nat
  description : String
  model : String
  patchId : String
deriving DecidableEq, Repr

/-- The aggregate root (`UIProject` in the absent `db-models.ts`);
the fields actually read or written by the modelled code. -/
structure UIProject where
  projectId : String
  components : List Component
  fullCode : String
  history : List HistoryEntry
deriving DecidableEq, Repr

/-- Model of `Array.prototype.join('\n')`. -/
def joinNL : List String → String
  | [] => ""
  | [s] => s
  | s :: rest => s ++ "\n" ++ joinNL rest

/-- The fixed wrapper text of `assembleJSX` before the interpolated
`${combinedCode}` (transcribed byte-for-byte from the template literal in
`parser.ts`, mojibake comment included). -/
def wrapPre : String :=
  "\n        function GeneratedUI() \x7b\n            return (\n                // Wrapper to center content and ensure full screen height\n                <div className=\"flex flex-col items-center justify-center min-h-screen p-8\">\n                    \x7b/* \u00f0\u0178\u203a\u2018 FINAL FIX: Adding h-auto and min-h-16 to guarantee dimensions */\x7d\n                    <div className=\"w-full max-w-md h-auto min-h-16\"> \n                        <React.Fragment>\n                            "

/-- The fixed wrapper text of `assembleJSX` after the interpolated
`${combinedCode}`. -/
def wrapPost : String :=
  "\n                        </React.Fragment>\n                    </div>\n                </div>\n            );\n        \x7d\n    "

/-- Model of `assembleJSX` (`src/lib/parser.ts`): join the components'
`code` fields with single newlines and embed the result in the fixed
wrapper template. -/
def assembleJSX (project : UIProject) : String :=
  let combinedCode := joinNL (project.components.map (·.code))
  wrapPre ++ combinedCode ++ wrapPost

/-! ## The DOM model (cheerio `load` / `$.html`)

`parser.ts` and `route.ts` hand markup to cheerio.  The tree cheerio
produces is modelled by `HNode`/`HForest` (a forest of element and text
nodes), `parseForest` models the tolerant HTML parse of `load` (restricted
to the entity-free, void-element-free markup this pipeline handles), and
`renderNode` models the `$.html(el)` serializer. -/

/-- Attribute lists: ordered `name ↦ value` pairs, first occurrence wins. -/
abbrev Attrs := List (List Char × List Char)

mutual
/-- A DOM node: an element with tag, attributes and child forest, or text. -/
inductive HNode where
  | elem (tag : List Char) (attrs : Attrs) (children : HForest)
  | text (s : List Char)
/-- A forest of sibling DOM nodes. -/
inductive HForest where
  | nil
  | cons (n : HNode) (rest : HForest)
end

/-- First value bound to `name` in an attribute list (cheerio `.attr(name)`). -/
def getAttrL (a : Attrs) (name : List Char) : Option (List Char) :=
  (a.find? (fun p => p.1 == name)).map (·.2)

/-- The attribute `name` is present (with any value). -/
def hasAttrKey (a : Attrs) (name : List Char) : Bool :=
  a.any (fun p => p.1 == name)

/-- Serialize an attribute list as cheerio does: a leading space and
`name="value"` for each pair. -/
def renderAttrs : Attrs → List Char
  | [] => []
  | (n, v) :: rest => ' ' :: (n ++ '=' :: '"' :: (v ++ '"' :: renderAttrs rest))

mutual
/-- Serialize one node (the model of cheerio's `$.html(el)` outerHTML). -/
def renderNode : HNode → List Char
  | .elem t a c => '<' :: (t ++ renderAttrs a ++ '>' :: (renderForest c ++ '<' :: '/' :: (t ++ ['>'])))
  | .text s => s
/-- Serialize a forest left to right. -/
def renderForest : HForest → List Char
  | .nil => []
  | .cons n rest => renderNode n ++ renderForest rest
end

/-- Characters allowed in a tag name by the parser model. -/
def isTagChar (c : Char) : Bool := c.isAlphanum

/-- Characters allowed in an attribute name by the parser model. -/
def isNameChar (c : Char) : Bool :=
  !(isWS c) && !(c == '=') && !(c == '>') && !(c == '/')

/-- Parse an attribute list up to and including the closing `>` (or `/>`);
returns the attributes, the remaining input and the self-closing flag.
Attribute names are ASCII-lower-cased on storage, as the HTML tokenizer
used by cheerio does (parse5, or htmlparser2 whose
`lowerCaseAttributeNames` defaults to on in HTML mode) — so a camelCase
name such as `className` in the input is stored under `classname`.
Fuel-driven so that the function is structurally total; the callers pass
`input.length + 1`, which always suffices. -/
def parseAttrs : Nat → List Char → Attrs × List Char × Bool
  | 0, cs => ([], cs, false)
  | fuel + 1, cs0 =>
    match cs0.dropWhile isWS with
    | [] => ([], [], false)
    | c :: rest =>
      if c == '>' then ([], rest, false)
      else if c == '/' then
        match rest with
        | '>' :: rest2 => ([], rest2, true)
        | _ => parseAttrs fuel rest
      else
        let nameRun := ((c :: rest).takeWhile isNameChar).map Char.toLower
        let afterName := (c :: rest).dropWhile isNameChar
        if nameRun.isEmpty then parseAttrs fuel rest
        else
          match afterName with
          | '=' :: '"' :: vr =>
            let v := vr.takeWhile (· != '"')
            let after := (vr.dropWhile (· != '"')).drop 1
            let r := parseAttrs fuel after
            ((nameRun, v) :: r.1, r.2)
          | '=' :: '\'' :: vr =>
            let v := vr.takeWhile (· != '\'')
            let after := (vr.dropWhile (· != '\'')).drop 1
            let r := parseAttrs fuel after
            ((nameRun, v) :: r.1, r.2)
          | '=' :: vr =>
            let v := vr.takeWhile (fun ch => !(isWS ch) && !(ch == '>'))
            let after := vr.dropWhile (fun ch => !(isWS ch) && !(ch == '>'))
            let r := parseAttrs fuel after
            ((nameRun, v) :: r.1, r.2)
          | _ =>
            let r := parseAttrs fuel afterName
            ((nameRun, []) :: r.1, r.2)

/-- Consume a closing tag `</name>` if the input starts with one
(tolerantly: the name is not checked against the opening tag). -/
def consumeClose : List Char → List Char
  | '<' :: '/' :: rest => (rest.dropWhile (· != '>')).drop 1
  | cs => cs

/-- The tolerant markup parse modelling cheerio's `load`: parse a sibling
forest until the input ends or a closing tag is reached (which is left for
the enclosing element's parse to consume).  Tag names are lower-cased as
in HTML mode.  Fuel-driven; `input.length + 1` always suffices because
every recursive call consumes at least one character. -/
def parseForest : Nat → List Char → HForest × List Char
  | 0, cs => (.nil, cs)
  | fuel + 1, cs =>
    match cs with
    | [] => (.nil, [])
    | c1 :: cs1 =>
      if c1 == '<' then
        match cs1 with
        | [] => (.cons (.text ['<']) .nil, [])
        | c2 :: _ =>
          if c2 == '/' then (.nil, c1 :: cs1)
          else if isTagChar c2 then
            let tagRun := (cs1.takeWhile isTagChar).map Char.toLower
            let afterTag := cs1.dropWhile isTagChar
            let pa := parseAttrs (afterTag.length + 1) afterTag
            if pa.2.2 then
              let sib := parseForest fuel pa.2.1
              (.cons (.elem tagRun pa.1 .nil) sib.1, sib.2)
            else
              let ch := parseForest fuel pa.2.1
              let sib := parseForest fuel (consumeClose ch.2)
              (.cons (.elem tagRun pa.1 ch.1) sib.1, sib.2)
          else
            let t := parseForest fuel cs1
            (.cons (.text ['<']) t.1, t.2)
      else
        let run := (c1 :: cs1).takeWhile (· != '<')
        let after := (c1 :: cs1).dropWhile (· != '<')
        let sib := parseForest fuel after
        (.cons (.text run) sib.1, sib.2)

/-- Parse a whole string into a forest (the model of `load(str)`). -/
def parseHTML (s : List Char) : HForest :=
  (parseForest (s.length + 1) s).1

/-- The identity attribute of the pipeline. -/
def inkwellAttr : List Char := "data-inkwell-id".data

mutual
/-- Root-level identified elements of one node, in document order: an
element carrying the identity attribute is emitted and its subtree is not
searched further; otherwise the search descends.  This is the semantics of
`$('[data-inkwell-id]')` followed by the
`$el.parents('[data-inkwell-id]').length > 0` skip in `decomposeJSX`. -/
def rootIdentifiedN : HNode → List HNode
  | .text _ => []
  | .elem t a c =>
    if hasAttrKey a inkwellAttr then [.elem t a c] else rootIdentifiedF c
/-- Root-level identified elements of a forest, in document order. -/
def rootIdentifiedF : HForest → List HNode
  | .nil => []
  | .cons n rest => rootIdentifiedN n ++ rootIdentifiedF rest
end

mutual
/-- All elements whose attribute `name` equals `val`, in document order
(the model of the cheerio selector `[name="val"]`). -/
def selectAttrEqN (name val : List Char) : HNode → List HNode
  | .text _ => []
  | .elem t a c =>
    (if getAttrL a name == some val then [HNode.elem t a c] else [])
      ++ selectAttrEqF name val c
/-- Selector search over a forest. -/
def selectAttrEqF (name val : List Char) : HForest → List HNode
  | .nil => []
  | .cons n rest => selectAttrEqN name val n ++ selectAttrEqF name val rest
end

/-! ## The regex models of `decomposeJSX` -/

/-- After the candidate closing parenthesis, the tail must match
`\s*;\s*\}` (the end of `return ( … ) ; }`). -/
def closerOK (cs : List Char) : Bool :=
  match cs.dropWhile isWS with
  | ';' :: r =>
    match r.dropWhile isWS with
    | '\x7d' :: _ => true
    | _ => false
  | _ => false

/-- The lazy group `([^]*?)` of the `return` regex: the shortest content
such that the next character is `)` and the rest matches `\s*;\s*\}`. -/
def lazyBody : List Char → List Char → Option (List Char)
  | [], _ => none
  | ')' :: rest, acc =>
    if closerOK rest then some acc.reverse else lazyBody rest (')' :: acc)
  | c :: rest, acc => lazyBody rest (c :: acc)

/-- Try the `return\s*\(` head of the regex at the current position. -/
def tryReturnAt (cs : List Char) : Option (List Char) :=
  if "return".data.isPrefixOf cs then
    match (cs.drop 6).dropWhile isWS with
    | '(' :: body => lazyBody body []
    | _ => none
  else none

/-- Model of `rawCode.match(/return\s*\(([^]*?)\)\s*;\s*\}/)`: the captured
group of the leftmost match, with the lazy group taking the shortest
content (the exact backtracking order of the JavaScript engine). -/
def extractReturn : List Char → Option (List Char)
  | [] => none
  | c :: rest =>
    match tryReturnAt (c :: rest) with
    | some g => some g
    | none => extractReturn rest

/-- Search the reversed tail for `<\/[^>]+>` read backwards: at least one
non-`>` character, then `/`, then `<`. -/
def closerSearch : Nat → List Char → Bool
  | k, '/' :: '<' :: rest =>
    if 1 ≤ k then true else closerSearch (k + 1) ('<' :: rest)
  | k, c :: rest => if c == '>' then false else closerSearch (k + 1) rest
  | _, [] => false

/-- The `[^]*<\/[^>]+>\s*$` tail of the bare-element regex, checked from
the end of the input. -/
def endClose (tail : List Char) : Bool :=
  match tail.reverse.dropWhile isWS with
  | '>' :: r2 => closerSearch 0 r2
  | _ => false

/-- Model of `/^\s*<[^>]+>[^]*<\/[^>]+>\s*$/.test(s)` (the bare-element
shape test of `decomposeJSX`). -/
def jsxShapeTest (cs : List Char) : Bool :=
  match cs.dropWhile isWS with
  | '<' :: rest =>
    match rest.takeWhile (· != '>'), rest.dropWhile (· != '>') with
    | [], _ => false
    | _ :: _, '>' :: tail => endClose tail
    | _, _ => false
  | _ => false

/-- The quoted value part `["']([^"']+)["']` of the root-tag regex. -/
def quoteVal : List Char → Option (List Char)
  | [] => none
  | q :: rest =>
    if q == '"' || q == '\'' then
      let v := rest.takeWhile (fun c => !(c == '"') && !(c == '\''))
      if v.isEmpty then none
      else
        match rest.drop v.length with
        | q2 :: _ => if q2 == '"' || q2 == '\'' then some v else none
        | [] => none
    else none

/-- Try `data-inkwell-id=["']([^"']+)["']` at the current position. -/
def attrAt (cs : List Char) : Option (List Char) :=
  if "data-inkwell-id=".data.isPrefixOf cs then quoteVal (cs.drop 16)
  else none

/-- Greedy `[^>]*` before the attribute literal: try the longest skip
first, as the backtracking engine does. -/
def findAttrDesc : Nat → List Char → Option (List Char)
  | 0, cs => attrAt cs
  | j + 1, cs =>
    match attrAt (cs.drop (j + 1)) with
    | some v => some v
    | none => findAttrDesc j cs

/-- Greedy `([a-zA-Z0-9]+)`: try the longest tag-name capture first. -/
def tryLens (rest : List Char) : Nat → Option (List Char × List Char)
  | 0 => none
  | len + 1 =>
    let after := rest.drop (len + 1)
    let maxSkip := (after.takeWhile (· != '>')).length
    match findAttrDesc maxSkip after with
    | some v => some (rest.take (len + 1), v)
    | none => tryLens rest len

/-- Model of
`innerJSX.match(/^<([a-zA-Z0-9]+)[^>]*data-inkwell-id=["']([^"']+)["']/)`
(the root-fallback id recovery), returning the two captured groups. -/
def rootTagMatch : List Char → Option (List Char × List Char)
  | '<' :: rest =>
    let run := rest.takeWhile (fun c => c.isAlphanum)
    if run.isEmpty then none else tryLens rest run.length
  | _ => none

/-! ## `decomposeJSX` -/

/-- JavaScript `tag.charAt(0).toUpperCase() + tag.slice(1)`. -/
def capitalizeJS : List Char → List Char
  | [] => []
  | c :: rest => c.toUpper :: rest

/-- The fixed error payload of the malformed-input fallback component
(transcribed from `parser.ts`). -/
def errorCode : String :=
  "<div className=\"text-red-500 p-8 border border-red-500 bg-red-900 rounded-lg text-center\"><p className=\"text-lg font-bold\">Parsing Failed: LLM Output Structure Error</p><p className=\"text-sm mt-2\">The AI output was malformed. Please try again or simplify the prompt.</p></div>"

/-- The malformed-input fallback component of `decomposeJSX`. -/
def errorComponent (id : String) (now : Nat) : Component :=
  { id := id
    name := "ErrorFallback"
    code := errorCode
    elementType := "div"
    lastUpdated := now }

/-- The working markup of `decomposeJSX`: the trimmed captured group of
the `return ( … ) ; }` regex when the match exists and its group is
non-empty (the `match && match[1]` truthiness test), else the trimmed
input when the bare-element shape test accepts it, else `none`
(the malformed-input case). -/
def workingMarkup (rawCode : String) : Option (List Char) :=
  let direct : Option (List Char) :=
    if jsxShapeTest (jsTrimL rawCode.data) then some (jsTrimL rawCode.data)
    else none
  match extractReturn rawCode.data with
  | some g => if g.isEmpty then direct else some (jsTrimL g)
  | none => direct

/-- The `.each` loop of `decomposeJSX` over the root-level identified
elements: one `Component` per element.  `k` indexes the id stream for the
`|| generateId()` fallback of an empty (or absent) identity value. -/
def buildComponents (gen : Nat → String) (now : Nat) :
    List HNode → Nat → List Component
  | [], _ => []
  | .text _ :: rest, k => buildComponents gen now rest k
  | .elem tag attrs children :: rest, k =>
    let idk : String × Nat :=
      match getAttrL attrs inkwellAttr with
      | some v => if v.isEmpty then (gen k, k + 1) else (v.asString, k)
      | none => (gen k, k + 1)
    let tagL := if tag.isEmpty then "div".data else tag
    { id := idk.1
      name := (capitalizeJS tagL).asString
      code := (renderNode (.elem tag attrs children)).asString
      elementType := tagL.asString
      lastUpdated := now } :: buildComponents gen now rest idk.2

/-- The zero-components fallback of `decomposeJSX`: a `RootContainer`
component holding the whole working markup; id and element type are
recovered from the outermost opening tag when the root-tag regex matches,
else the id is freshly generated and the tag defaults to `div`. -/
def rootFallback (gen : Nat → String) (now : Nat) (innerJSX : List Char) :
    Component :=
  match rootTagMatch innerJSX with
  | some tv =>
    { id := tv.2.asString
      name := "RootContainer"
      code := innerJSX.asString
      elementType := tv.1.asString
      lastUpdated := now }
  | none =>
    { id := gen 0
      name := "RootContainer"
      code := innerJSX.asString
      elementType := "div"
      lastUpdated := now }

/-- Model of `decomposeJSX` (`src/lib/parser.ts`). -/
def decomposeJSX (gen : Nat → String) (now : Nat) (rawCode : String) :
    List Component :=
  match workingMarkup rawCode with
  | none => [errorComponent (gen 0) now]
  | some innerJSX =>
    if (buildComponents gen now (rootIdentifiedF (parseHTML innerJSX)) 0).isEmpty then
      [rootFallback gen now innerJSX]
    else buildComponents gen now (rootIdentifiedF (parseHTML innerJSX)) 0

/-! ## The patch route (`src/app/api/patch/route.ts`)

The `POST` handler is modelled as a pure function.  External collaborators
are abstracted exactly at their call sites: `loadProject()` becomes the
`loaded` argument, and the `generateContent` call together with the
code-fence strip and `sanitizeCode` becomes the `sanitizedPatchCode`
argument (the string the route names `sanitizedPatchCode`).  The
`targetComponent` record built in step 3 of the route feeds only the LLM
prompt text, so it does not reappear here; its side computation
`preservedClassName` does.  The result is the JSON response value: the
updated project on success (which the route also persists via
`saveProject`), or the error payload and HTTP status. -/

/-- The outcome of one route invocation. -/
inductive ApiResult where
  | ok (project : UIProject)
  | err (status : Nat) (message : String)
deriving DecidableEq, Repr

/-- The `className` attribute name. -/
def classNameAttr : List Char := "className".data

/-- Attribute lookup on a node (text nodes have no attributes). -/
def nodeAttr : HNode → List Char → Option (List Char)
  | .elem _ a _, name => getAttrL a name
  | .text _, _ => none

/-- Model of cheerio's `.attr(name, value)` on an attribute list: replace
the value where the name is already present, else append the pair. -/
def setAttrL (a : Attrs) (name v : List Char) : Attrs :=
  if a.any (fun p => p.1 == name) then
    a.map (fun p => if p.1 == name then (p.1, v) else p)
  else a ++ [(name, v)]

/-- Set an attribute on a node (no effect on text nodes). -/
def setNodeAttr (name v : List Char) : HNode → HNode
  | .elem t a c => .elem t (setAttrL a name v) c
  | .text s => .text s

/-- The selection `$('[data-inkwell-id="<componentId>"]')` over a parsed
code string, in document order. -/
def nestedSelection (code componentId : String) : List HNode :=
  selectAttrEqF inkwellAttr componentId.data (parseHTML code.data)

/-- Step 3 of the route: for a nested target, the value
`targetElement.attr('className')` of the first selected element, `none`
when the selection is empty or the key is absent.  Because the parse
stores attribute names lower-cased and the lookup is case-sensitive, the
camelCase key `className` never matches parsed markup: this is always
`none` in the modelled program, exactly as in cheerio. -/
def extractPreserved (ownerCode componentId : String) : Option String :=
  match nestedSelection ownerCode componentId with
  | [] => none
  | el :: _ => (nodeAttr el classNameAttr).map List.asString

/-- Step 7 of the route: when a prior `className` was preserved (JavaScript
truthiness: the empty string does not count) and the patched code still
contains the target, merge prior-then-new with a single space, trim, set
the merged value on every selected element and re-serialize the selection
(`$.html(element)`); otherwise keep the patched code unchanged.  Since
`extractPreserved` is always `none` for parsed markup (lower-cased
attribute keys), the merge branch is dead code in the program; it is
modelled because the route contains it. -/
def applyPreserve (preserved : Option String) (componentId patchedCode : String) :
    String :=
  match preserved with
  | none => patchedCode
  | some p =>
    if p.isEmpty then patchedCode
    else
      match nestedSelection patchedCode componentId with
      | [] => patchedCode
      | el0 :: sel =>
        let newClasses := (nodeAttr el0 classNameAttr).getD []
        let merged := jsTrimL (p.data ++ ' ' :: newClasses)
        (((el0 :: sel).map (fun n => renderNode (setNodeAttr classNameAttr merged n))).flatten).asString

/-- Model of the `POST` handler of `src/app/api/patch/route.ts`. -/
def POST (gen : Nat → String) (now : Nat) (patchToken : String)
    (projectId componentId editPrompt : String)
    (loaded : Option UIProject) (sanitizedPatchCode : String) : ApiResult :=
  match loaded with
  | none => .err 404 "Project not found or invalid ID."
  | some project =>
    if project.projectId != projectId then
      .err 404 "Project not found or invalid ID."
    else
      match project.components.find? (fun c =>
          c.id == componentId ||
          jsIncludes c.code ("data-inkwell-id=\"" ++ componentId ++ "\"")) with
      | none => .err 404 ("Component with ID " ++ componentId ++ " not found.")
      | some componentToPatch =>
        let preservedClassName : Option String :=
          if componentToPatch.id != componentId then
            extractPreserved componentToPatch.code componentId
          else none
        if !(jsIncludes sanitizedPatchCode
              ("data-inkwell-id=\"" ++ componentId ++ "\"")) then
          .err 500 "Generated code is missing required component ID."
        else
          match (decomposeJSX gen now sanitizedPatchCode).head? with
          | none => .err 500 "Failed to parse patched component"
          | some patchedComponent =>
            if patchedComponent.code.isEmpty then
              .err 500 "Failed to parse patched component"
            else
              let finalPatchedCode :=
                applyPreserve preservedClassName componentId patchedComponent.code
              let updatedComponents := project.components.map (fun c =>
                if c.id == componentId then
                  { c with code := finalPatchedCode, lastUpdated := now }
                else c)
              let fullCode := assembleJSX { project with components := updatedComponents }
              if !(jsIncludes fullCode "function GeneratedUI()") then
                .err 500 "Generated code is invalid"
              else
                .ok { project with
                      components := updatedComponents
                      fullCode := fullCode
                      history := project.history ++
                        [{ timestamp := now
                           description := "Patched component " ++ componentId ++ ": " ++ editPrompt
                           model := "gemini-2.5-pro"
                           patchId := patchToken }] }

/-! ## Serializable trees

`wfNode` carves out the trees on which the serializer and the parser are
mutually inverse: non-empty lower-case alphanumeric tags, attribute names
made of attribute-name characters, attribute values free of `"`, non-empty
text nodes free of `<`, and no two adjacent text nodes (a re-parse would
merge them).  Every tree the pipeline builds from sanitized markup is of
this shape; the round-trip theorems take it as a hypothesis. -/

/-- The node is a text node. -/
def isText : HNode → Bool
  | .text _ => true
  | .elem _ _ _ => false

/-- The forest starts with a text node. -/
def headIsText : HForest → Bool
  | .nil => false
  | .cons n _ => isText n

/-- Serializable attribute lists: non-empty lower-case names (the parser,
like cheerio, lower-cases attribute names, so only lists whose names are
already lower-case can be parser output or survive a round trip) and
values free of `"`. -/
def wfAttrs (a : Attrs) : Bool :=
  a.all (fun p => !p.1.isEmpty &&
    p.1.all (fun ch => isNameChar ch && (ch.toLower == ch)) &&
    p.2.all (· != '"'))

mutual
/-- Serializable nodes. -/
def wfNode : HNode → Bool
  | .text s => !s.isEmpty && s.all (· != '<')
  | .elem t a c =>
    !t.isEmpty && t.all (fun ch => isTagChar ch && (ch.toLower == ch)) &&
      wfAttrs a && wfForest c
/-- Serializable forests. -/
def wfForest : HForest → Bool
  | .nil => true
  | .cons n rest => wfNode n && wfForest rest && !(isText n && headIsText rest)
end

mutual
/-- Node size, the induction measure for the parser lemmas. -/
def sizeN : HNode → Nat
  | .text _ => 1
  | .elem _ _ c => 1 + sizeF c
/-- Forest size. -/
def sizeF : HForest → Nat
  | .nil => 1
  | .cons n rest => sizeN n + sizeF rest
end

/-! ## Claim-facing projections -/

/-- The identity value an element contributes (`[]` for text nodes or a
missing attribute). -/
def idValOf : HNode → List Char
  | .elem _ a _ => (getAttrL a inkwellAttr).getD []
  | .text _ => []

/-- The identity values of the root-level identified elements of the
working markup of `raw` (empty on the malformed-input path). -/
def rootIdValues (raw : String) : List (List Char) :=
  match workingMarkup raw with
  | none => []
  | some w => (rootIdentifiedF (parseHTML w)).map idValOf

/-- Re-parse a serialized fragment: when the parse yields exactly one root
element, its identity attribute value. -/
def reparseRootId (code : String) : Option String :=
  match parseHTML code.data with
  | .cons (.elem _ a _) .nil => (getAttrL a inkwellAttr).map List.asString
  | _ => none

/-- The component list of a successful route response. -/
def resultComponents : ApiResult → Option (List Component)
  | .ok p => some p.components
  | .err _ _ => none

/-- The first component's code of a successful route response. -/
def resultHeadCode : ApiResult → Option String
  | .ok p => p.components.head?.map (·.code)
  | .err _ _ => none

/-! ## Concrete fixtures for witnesses and counterexamples -/

/-- A concrete stand-in for the `Math.random()` id stream. -/
def cgen : Nat → String := fun _ => "fresh1"

/-- Scenario A of the spec, with the identity attribute the code actually
uses. -/
def scenarioA : String :=
  "function X()\x7b return (<div data-inkwell-id=\"a1\"><span data-inkwell-id=\"a2\">hi</span></div>); \x7d"

/-- The single fragment content Scenario A decomposes to. -/
def scenarioAOuter : String :=
  "<div data-inkwell-id=\"a1\"><span data-inkwell-id=\"a2\">hi</span></div>"

/-- An input whose two root-level identified elements share the identity
value `x`. -/
def dupIdsInput : String :=
  "function X()\x7b return (<div><p data-inkwell-id=\"x\">A</p><p data-inkwell-id=\"x\">B</p></div>); \x7d"

/-- The fragment holding Scenario A's markup. -/
def compA1 : Component :=
  { id := "a1", name := "Div", code := scenarioAOuter, elementType := "div",
    lastUpdated := 0 }

/-- A one-fragment project around `compA1`. -/
def projC1 : UIProject :=
  { projectId := "p1", components := [compA1], fullCode := "", history := [] }

/-- Scenario B's replacement markup for the nested identity `a2`. -/
def spanPatchNew : String :=
  "<span data-inkwell-id=\"a2\" className=\"text-red-500\">bye</span>"

/-- Sanitized patch content with two root elements, the first carrying the
target identity `a1`. -/
def twoRootPatch : String :=
  "<div data-inkwell-id=\"a1\">A</div><div data-inkwell-id=\"zz\">B</div>"

/-- An owner fragment whose nested target carries a prior `className`. -/
def ownerWithClass : String :=
  "<div data-inkwell-id=\"a1\"><span data-inkwell-id=\"a2\" className=\"font-bold\">hi</span></div>"

/-- The fragment holding `ownerWithClass`. -/
def ownerComp9 : Component :=
  { id := "a1", name := "Div", code := ownerWithClass, elementType := "div",
    lastUpdated := 0 }

/-- A one-fragment project around `ownerComp9`. -/
def projC9 : UIProject :=
  { projectId := "p9", components := [ownerComp9], fullCode := "", history := [] }

/-- Sanitized own-id patch content: a single identified element in
canonical serialized form. -/
def patchA1New : String := "<div data-inkwell-id=\"a1\">new</div>"

/-- The first component decomposed from `patchA1New` at time 5. -/
def pcA1New : Component :=
  { id := "a1", name := "Div", code := patchA1New, elementType := "div",
    lastUpdated := 5 }

/-! ## Substring lemmas -/

theorem isPre_append {p s : List Char} (t : List Char) (h : isPre p s = true) :
    isPre p (s ++ t) = true := by
  induction p generalizing s with
  | nil => simp [isPre]
  | cons a ps ih =>
    cases s with
    | nil => simp [isPre] at h
    | cons b bs =>
      simp only [isPre, Bool.and_eq_true, List.cons_append] at h ⊢
      exact ⟨h.1, ih h.2⟩

theorem containsSub_nil (s : List Char) : containsSub s [] = true := by
  cases s <;> simp [containsSub, isPre]

theorem containsSub_append_right {s pat : List Char} (t : List Char)
    (h : containsSub s pat = true) : containsSub (s ++ t) pat = true := by
  induction s with
  | nil =>
    simp only [containsSub, List.isEmpty_iff] at h
    subst h
    exact containsSub_nil t
  | cons c cs ih =>
    simp only [containsSub, Bool.or_eq_true, List.cons_append] at h ⊢
    rcases h with h | h
    · exact Or.inl (isPre_append t h)
    · exact Or.inr (ih h)

theorem assembleJSX_marker (p : UIProject) :
    jsIncludes (assembleJSX p) "function GeneratedUI()" = true := by
  show containsSub (assembleJSX p).data "function GeneratedUI()".data = true
  have hdata : (assembleJSX p).data =
      wrapPre.data ++
        ((joinNL (p.components.map (·.code))).data ++ wrapPost.data) := by
    simp [assembleJSX, String.data_append, List.append_assoc]
  rw [hdata]
  exact containsSub_append_right _ (by decide)

/-! ## Claim theorems: assembly, decomposition totality, scenarios -/

/-- C6: `assembleJSX` returns the fixed wrapper (outer centering `div`,
inner fixed-width `div`, `React.Fragment` grouping) around the components'
code strings joined in order by single newlines, and two calls on the same
ordered code list yield byte-identical output. -/
theorem c6_assembleJSX_wrapper_deterministic (p q : UIProject)
    (h : p.components.map (·.code) = q.components.map (·.code)) :
    assembleJSX p = wrapPre ++ joinNL (p.components.map (·.code)) ++ wrapPost ∧
    assembleJSX p = assembleJSX q := by
  refine ⟨rfl, ?_⟩
  unfold assembleJSX
  rw [h]

theorem c6_witness :
    assembleJSX projC1 =
      wrapPre ++ joinNL (projC1.components.map (·.code)) ++ wrapPost ∧
    assembleJSX projC1 = assembleJSX projC1 :=
  c6_assembleJSX_wrapper_deterministic projC1 projC1 rfl

/-- C2: `decomposeJSX` always returns a non-empty component list; when the
input matches neither the wrapped-return shape nor the bare-element shape
it returns exactly the single error-fallback component (tag `div`, fixed
error payload, freshly generated id), and when the working markup parses
to zero root-level identified elements it returns exactly the single
root-fallback component. -/
theorem c2_decomposeJSX_total (gen : Nat → String) (now : Nat) (raw : String) :
    decomposeJSX gen now raw ≠ [] ∧
    (workingMarkup raw = none →
      decomposeJSX gen now raw = [errorComponent (gen 0) now]) ∧
    (∀ w, workingMarkup raw = some w → rootIdentifiedF (parseHTML w) = [] →
      decomposeJSX gen now raw = [rootFallback gen now w]) := by
  cases hw : workingMarkup raw with
  | none =>
    refine ⟨?_, fun _ => ?_, fun w hww => ?_⟩
    · simp [decomposeJSX, hw]
    · simp [decomposeJSX, hw]
    · exact absurd hww (by simp)
  | some w =>
    simp only [decomposeJSX, hw]
    refine ⟨?_, by simp, ?_⟩
    · split
      · simp
      · next hcomps =>
        simpa using hcomps
    · intro w' hww' hroots
      obtain rfl : w = w' := by injection hww'
      simp [hroots, buildComponents]

theorem c2_witness :
    decomposeJSX cgen 7 "plain text, no markup" ≠ [] ∧
    decomposeJSX cgen 7 "plain text, no markup" = [errorComponent "fresh1" 7] := by
  have h := c2_decomposeJSX_total cgen 7 "plain text, no markup"
  exact ⟨h.1, h.2.1 (by decide)⟩

/-- C3: `decomposeJSX` emits one component per root-level identified
element only.  On Scenario A's input the result is exactly one component
with id `a1` and element type `div`; the nested `span` with identity `a2`
stays embedded verbatim in its code and is not emitted separately. -/
theorem c3_nested_not_extracted (gen : Nat → String) (now : Nat) :
    decomposeJSX gen now scenarioA =
      [{ id := "a1", name := "Div", code := scenarioAOuter,
         elementType := "div", lastUpdated := now }] ∧
    jsIncludes scenarioAOuter "<span data-inkwell-id=\"a2\">hi</span>" = true ∧
    ∀ comp ∈ decomposeJSX gen now scenarioA, comp.id ≠ "a2" := by
  have h1 : decomposeJSX gen now scenarioA =
      [{ id := "a1", name := "Div", code := scenarioAOuter,
         elementType := "div", lastUpdated := now }] := rfl
  refine ⟨h1, by decide, ?_⟩
  intro comp hc
  rw [h1] at hc
  simp only [List.mem_singleton] at hc
  subst hc
  exact (by decide : ("a1" : String) ≠ "a2")

theorem c3_witness :
    decomposeJSX cgen 0 scenarioA =
      [{ id := "a1", name := "Div", code := scenarioAOuter,
         elementType := "div", lastUpdated := 0 }] ∧
    jsIncludes scenarioAOuter "<span data-inkwell-id=\"a2\">hi</span>" = true ∧
    ∀ comp ∈ decomposeJSX cgen 0 scenarioA, comp.id ≠ "a2" :=
  c3_nested_not_extracted cgen 0

/-- C4 counterexample: on an input whose two root-level identified elements
both carry the identity value `x`, `decomposeJSX` returns two components
with equal ids, refuting id uniqueness for arbitrary inputs. -/
theorem c4_counterexample :
    (decomposeJSX cgen 0 dupIdsInput).map Component.id = ["x", "x"] ∧
    ¬ ((decomposeJSX cgen 0 dupIdsInput).map Component.id).Nodup := by
  constructor
  · rfl
  · decide

theorem buildComponents_map_id (gen : Nat → String) (now : Nat) :
    ∀ (els : List HNode) (k : Nat), (∀ el ∈ els, idValOf el ≠ []) →
      (buildComponents gen now els k).map Component.id =
        els.map (fun el => (idValOf el).asString) := by
  intro els
  induction els with
  | nil => intro k _; rfl
  | cons el rest ih =>
    intro k h
    cases el with
    | text s =>
      have h0 := h _ (List.mem_cons_self _ _)
      simp [idValOf] at h0
    | elem t a c =>
      have h0 := h _ (List.mem_cons_self _ _)
      simp only [idValOf] at h0
      cases hga : getAttrL a inkwellAttr with
      | none => rw [hga] at h0; simp at h0
      | some v =>
        rw [hga] at h0
        simp only [Option.getD_some] at h0
        have hv : v.isEmpty = false := by
          cases v
          · exact absurd rfl h0
          · rfl
        simp only [buildComponents, hga, hv, Bool.false_eq_true, if_false,
          List.map_cons, idValOf, Option.getD_some]
        rw [ih k (fun e he => h e (List.mem_cons_of_mem _ he))]
        rfl

/-- C4 amended: no two components returned by one `decomposeJSX` call share
an id, provided no two root-level identified elements of the input carry
the same identity value and none carries an empty one (ids are recovered
verbatim, so duplicated input identities are passed through). -/
theorem c4_amended_id_unique (gen : Nat → String) (now : Nat) (raw : String)
    (hnodup : (rootIdValues raw).Nodup)
    (hne : [] ∉ rootIdValues raw) :
    ((decomposeJSX gen now raw).map Component.id).Nodup := by
  cases hw : workingMarkup raw with
  | none => simp [decomposeJSX, hw]
  | some w =>
    simp only [rootIdValues, hw] at hnodup hne
    have hvals : ∀ el ∈ rootIdentifiedF (parseHTML w), idValOf el ≠ [] := by
      intro el hel heq
      exact hne (heq ▸ List.mem_map_of_mem idValOf hel)
    simp only [decomposeJSX, hw]
    split
    · simp
    · rw [buildComponents_map_id gen now _ 0 hvals]
      have hcomp :
          List.map (fun el => (idValOf el).asString) (rootIdentifiedF (parseHTML w)) =
            List.map List.asString (List.map idValOf (rootIdentifiedF (parseHTML w))) := by
        rw [List.map_map]
        rfl
      rw [hcomp]
      exact hnodup.map (fun a b hab => List.asString_inj.mp hab)

theorem c4_amended_witness :
    (rootIdValues scenarioA).Nodup ∧ [] ∉ rootIdValues scenarioA ∧
    ((decomposeJSX cgen 0 scenarioA).map Component.id).Nodup :=
  ⟨by decide, by decide, c4_amended_id_unique cgen 0 scenarioA (by decide) (by decide)⟩

/-! ## Claim theorems: the patch route -/

/-- C7: when the sanitized patch content does not contain the target
identity attribute `data-inkwell-id="<target>"` verbatim, the route
rejects with the invalid-patch error before any fragment is touched: no
success value (and hence no persisted project) can be produced. -/
theorem c7_identity_preservation_rejected (gen : Nat → String) (now : Nat)
    (tok ep componentId sanitized : String) (project : UIProject) (c : Component)
    (hfind : project.components.find? (fun x =>
      x.id == componentId ||
      jsIncludes x.code ("data-inkwell-id=\"" ++ componentId ++ "\"")) = some c)
    (hmiss : jsIncludes sanitized ("data-inkwell-id=\"" ++ componentId ++ "\"") = false) :
    POST gen now tok project.projectId componentId ep (some project) sanitized =
      ApiResult.err 500 "Generated code is missing required component ID." ∧
    ∀ p', POST gen now tok project.projectId componentId ep (some project) sanitized ≠
      ApiResult.ok p' := by
  have h : POST gen now tok project.projectId componentId ep (some project) sanitized =
      ApiResult.err 500 "Generated code is missing required component ID." := by
    simp [POST, hfind, hmiss]
  exact ⟨h, fun p' hp => by rw [h] at hp; cases hp⟩

theorem c7_witness :
    POST cgen 5 "tok" projC1.projectId "a1" "edit" (some projC1)
        "<div data-inkwell-id=\"zz\">A</div>" =
      ApiResult.err 500 "Generated code is missing required component ID." :=
  (c7_identity_preservation_rejected cgen 5 "tok" "edit" "a1"
    "<div data-inkwell-id=\"zz\">A</div>" projC1 compA1 (by decide) (by decide)).1

/-- C1 (code bug): patching the nested identity `a2` inside fragment `a1`
succeeds, yet the owning fragment's content is returned unchanged — the
computed replacement is dropped because the update map only matches a
component whose own id equals the target.  The new text `bye` is in the
patch content but nowhere in the resulting fragment collection. -/
theorem c1_nested_patch_dropped :
    resultComponents (POST cgen 5 "tok" "p1" "a2" "make it red"
        (some projC1) spanPatchNew) = some [compA1] ∧
    resultHeadCode (POST cgen 5 "tok" "p1" "a2" "make it red"
        (some projC1) spanPatchNew) = some scenarioAOuter ∧
    jsIncludes spanPatchNew "bye" = true ∧
    jsIncludes scenarioAOuter "bye" = false := by
  refine ⟨rfl, rfl, by decide, by decide⟩

/-- C8 counterexample: a successful own-id patch does not replace the
fragment content with the provided sanitized content itself — with
two-root patch content the stored content is only the first decomposed
element's serialization. -/
theorem c8_counterexample :
    resultHeadCode (POST cgen 5 "tok" "p1" "a1" "edit" (some projC1) twoRootPatch) =
      some "<div data-inkwell-id=\"a1\">A</div>" ∧
    "<div data-inkwell-id=\"a1\">A</div>" ≠ twoRootPatch := by
  refine ⟨rfl, by decide⟩

/-- C8 amended: when the found fragment's own id equals the target
identity, a successful patch replaces that fragment's content wholesale
with the code of the first component decomposed from the sanitized patch
content (equal to the sanitized content itself exactly when that content
is a single identified element in canonical serialized form), refreshes
its `lastUpdated` timestamp, and leaves every other fragment unchanged. -/
theorem c8_amended_own_id_patch (gen : Nat → String) (now : Nat)
    (tok ep componentId sanitized : String) (project : UIProject)
    (c pc : Component)
    (hfind : project.components.find? (fun x =>
      x.id == componentId ||
      jsIncludes x.code ("data-inkwell-id=\"" ++ componentId ++ "\"")) = some c)
    (hown : c.id = componentId)
    (hincl : jsIncludes sanitized ("data-inkwell-id=\"" ++ componentId ++ "\"") = true)
    (hhead : (decomposeJSX gen now sanitized).head? = some pc)
    (hcode : pc.code.isEmpty = false) :
    POST gen now tok project.projectId componentId ep (some project) sanitized =
      ApiResult.ok
        { project with
          components := project.components.map (fun x =>
            if x.id == componentId then
              { x with code := pc.code, lastUpdated := now }
            else x)
          fullCode := assembleJSX { project with
            components := project.components.map (fun x =>
              if x.id == componentId then
                { x with code := pc.code, lastUpdated := now }
              else x) }
          history := project.history ++
            [{ timestamp := now
               description := "Patched component " ++ componentId ++ ": " ++ ep
               model := "gemini-2.5-pro"
               patchId := tok }] } ∧
    ∀ x ∈ project.components, x.id ≠ componentId →
      x ∈ project.components.map (fun x =>
        if x.id == componentId then
          { x with code := pc.code, lastUpdated := now }
        else x) := by
  subst hown
  constructor
  · simp only [POST, hfind, hincl, hhead, hcode, bne_self_eq_false,
      Bool.not_true, Bool.false_eq_true, if_false, Option.some.injEq,
      assembleJSX_marker]
    simp [applyPreserve]
  · intro x hx hne
    refine List.mem_map.mpr ⟨x, hx, ?_⟩
    have hb : (x.id == c.id) = false := beq_eq_false_iff_ne.mpr hne
    simp [hb]

theorem c8_witness :
    POST cgen 5 "tok" projC1.projectId "a1" "edit" (some projC1) patchA1New =
      ApiResult.ok
        { projC1 with
          components := projC1.components.map (fun x =>
            if x.id == "a1" then
              { x with code := pcA1New.code, lastUpdated := 5 }
            else x)
          fullCode := assembleJSX { projC1 with
            components := projC1.components.map (fun x =>
              if x.id == "a1" then
                { x with code := pcA1New.code, lastUpdated := 5 }
              else x) }
          history := projC1.history ++
            [{ timestamp := 5
               description := "Patched component " ++ "a1" ++ ": " ++ "edit"
               model := "gemini-2.5-pro"
               patchId := "tok" }] } ∧
    ∀ x ∈ projC1.components, x.id ≠ "a1" →
      x ∈ projC1.components.map (fun x =>
        if x.id == "a1" then
          { x with code := pcA1New.code, lastUpdated := 5 }
        else x) :=
  c8_amended_own_id_patch cgen 5 "tok" "edit" "a1" patchA1New projC1 compA1 pcA1New
    (by decide) rfl (by decide) (by decide) rfl

/-- C10: every `assembleJSX` output contains the wrapper marker
`function GeneratedUI()`, so the route's assembly-invariant-violation
branch (`Generated code is invalid`) is unreachable: no invocation of the
patch route can return that error. -/
theorem c10_assembly_marker_invalid_unreachable :
    (∀ p : UIProject, jsIncludes (assembleJSX p) "function GeneratedUI()" = true) ∧
    ∀ (gen : Nat → String) (now : Nat) (tok pid cid ep spc : String)
      (loaded : Option UIProject),
      POST gen now tok pid cid ep loaded spc ≠
        ApiResult.err 500 "Generated code is invalid" := by
  refine ⟨assembleJSX_marker, ?_⟩
  intro gen now tok pid cid ep spc loaded h
  cases loaded with
  | none => simp [POST] at h
  | some project =>
    simp only [POST] at h
    repeat' split at h
    all_goals simp_all [assembleJSX_marker]

/-! ## Round-trip: the serializer output re-parses to the same tree -/

theorem beq_false_of_pred {p : Char → Bool} {c d : Char}
    (h : p c = true) (hd : p d = false) : (c == d) = false := by
  cases hc : c == d with
  | false => rfl
  | true =>
    rw [beq_iff_eq] at hc
    subst hc
    exact absurd hd (by simp [h])

theorem isNameChar_spec {c : Char} (h : isNameChar c = true) :
    isWS c = false ∧ (c == '=') = false ∧ (c == '>') = false ∧ (c == '/') = false := by
  simp only [isNameChar, Bool.and_eq_true, Bool.not_eq_true'] at h
  exact ⟨h.1.1.1, h.1.1.2, h.1.2, h.2⟩

theorem isTagChar_not_ws {c : Char} (h : isTagChar c = true) : isWS c = false := by
  cases hws : isWS c with
  | false => rfl
  | true =>
    simp only [isWS, Bool.or_eq_true, decide_eq_true_eq] at hws
    rcases hws with ((((rfl | rfl) | rfl) | rfl) | rfl) | rfl <;>
      exact absurd h (by decide)

theorem span_exact {p : Char → Bool} {xs : List Char} (ys : List Char)
    (hall : ∀ a ∈ xs, p a = true)
    (hys : ys = [] ∨ ∃ y ys', ys = y :: ys' ∧ p y = false) :
    (xs ++ ys).takeWhile p = xs ∧ (xs ++ ys).dropWhile p = ys := by
  constructor
  · rw [List.takeWhile_append_of_pos hall]
    rcases hys with rfl | ⟨y, ys', rfl, hy⟩
    · simp
    · rw [List.takeWhile_cons_of_neg (by simp [hy])]
      simp
  · rw [List.dropWhile_append_of_pos hall]
    rcases hys with rfl | ⟨y, ys', rfl, hy⟩
    · simp
    · rw [List.dropWhile_cons_of_neg (by simp [hy])]

theorem map_toLower_id {l : List Char}
    (h : ∀ ch ∈ l, (ch.toLower == ch) = true) : l.map Char.toLower = l := by
  induction l with
  | nil => rfl
  | cons c rest ih =>
    rw [List.map_cons, ih (fun ch hch => h ch (List.mem_cons_of_mem _ hch)),
      beq_iff_eq.mp (h c (List.mem_cons_self _ _))]

theorem parseAttrs_render :
    ∀ (a : Attrs) (fuel : Nat) (tail : List Char),
      a.length + 1 ≤ fuel → wfAttrs a = true →
      parseAttrs fuel (renderAttrs a ++ '>' :: tail) = (a, tail, false) := by
  intro a
  induction a with
  | nil =>
    intro fuel tail hf _
    obtain ⟨f, rfl⟩ : ∃ f, fuel = f + 1 := ⟨fuel - 1, by omega⟩
    show parseAttrs (f + 1) ('>' :: tail) = ([], tail, false)
    simp only [parseAttrs]
    rw [List.dropWhile_cons_of_neg (by decide)]
    simp
  | cons pr rest ih =>
    obtain ⟨n, v⟩ := pr
    intro fuel tail hf hwf
    obtain ⟨f, rfl⟩ : ∃ f, fuel = f + 1 := ⟨fuel - 1, by omega⟩
    simp only [wfAttrs, List.all_cons, Bool.and_eq_true, Bool.not_eq_true'] at hwf
    obtain ⟨⟨⟨hne, hnall⟩, hvall⟩, hrest⟩ := hwf
    obtain ⟨n0, n', rfl⟩ : ∃ c l, n = c :: l := by
      cases n
      · simp at hne
      · exact ⟨_, _, rfl⟩
    have hnboth : ∀ ch ∈ n0 :: n', (isNameChar ch && (ch.toLower == ch)) = true :=
      List.all_eq_true.mp hnall
    have hnall' : ∀ ch ∈ n0 :: n', isNameChar ch = true := by
      intro ch hch
      have h2 := hnboth ch hch
      simp only [Bool.and_eq_true] at h2
      exact h2.1
    have hnlow : ∀ ch ∈ n0 :: n', (ch.toLower == ch) = true := by
      intro ch hch
      have h2 := hnboth ch hch
      simp only [Bool.and_eq_true] at h2
      exact h2.2
    have hvall' : ∀ ch ∈ v, (ch != '"') = true := List.all_eq_true.mp hvall
    have hn0 := isNameChar_spec (hnall' n0 (List.mem_cons_self _ _))
    have hshape : renderAttrs ((n0 :: n', v) :: rest) ++ '>' :: tail =
        ' ' :: n0 :: (n' ++ ('=' :: '"' :: (v ++ '"' :: (renderAttrs rest ++ '>' :: tail)))) := by
      simp [renderAttrs, List.append_assoc]
    rw [hshape]
    simp only [parseAttrs]
    rw [List.dropWhile_cons_of_pos (by decide), List.dropWhile_cons_of_neg (by simp [hn0.1])]
    split
    · next heq => simp at heq
    · next c0 rest0 heq =>
      obtain ⟨rfl, rfl⟩ : c0 = n0 ∧ rest0 = n' ++ ('=' :: '"' :: (v ++ '"' :: (renderAttrs rest ++ '>' :: tail))) := by
        refine ⟨?_, ?_⟩ <;> injection heq <;> simp_all
      have hspan := span_exact (p := isNameChar)
        ('=' :: '"' :: (v ++ '"' :: (renderAttrs rest ++ '>' :: tail))) hnall'
        (Or.inr ⟨'=', _, rfl, by decide⟩)
      rw [show (c0 :: (n' ++ ('=' :: '"' :: (v ++ '"' :: (renderAttrs rest ++ '>' :: tail))))).takeWhile isNameChar =
        ((c0 :: n') ++ ('=' :: '"' :: (v ++ '"' :: (renderAttrs rest ++ '>' :: tail)))).takeWhile isNameChar from rfl,
        show (c0 :: (n' ++ ('=' :: '"' :: (v ++ '"' :: (renderAttrs rest ++ '>' :: tail))))).dropWhile isNameChar =
        ((c0 :: n') ++ ('=' :: '"' :: (v ++ '"' :: (renderAttrs rest ++ '>' :: tail)))).dropWhile isNameChar from rfl]
      simp only [hn0.2.2.1, hn0.2.2.2, Bool.false_eq_true, if_false, hspan.1, hspan.2,
        map_toLower_id hnlow, List.isEmpty_cons]
      have hvspan := span_exact (p := fun ch => ch != '"')
        ('"' :: (renderAttrs rest ++ '>' :: tail)) hvall'
        (Or.inr ⟨'"', _, rfl, by decide⟩)
      simp only [hvspan.1, hvspan.2, List.drop_succ_cons, List.drop_zero]
      rw [ih f tail (by simpa using hf) (by simpa [wfAttrs] using hrest)]

theorem sizeN_pos (n : HNode) : 1 ≤ sizeN n := by
  cases n <;> simp [sizeN]

theorem sizeF_pos (fs : HForest) : 1 ≤ sizeF fs := by
  cases fs with
  | nil => simp [sizeF]
  | cons n rest => have := sizeN_pos n; simp [sizeF]; omega

theorem renderAttrs_length (a : Attrs) : a.length ≤ (renderAttrs a).length := by
  induction a with
  | nil => simp [renderAttrs]
  | cons pr rest ih =>
    obtain ⟨n, v⟩ := pr
    simp [renderAttrs]
    omega

theorem bne_true_of_beq_false {c d : Char} (h : (c == d) = false) :
    (c != d) = true := by
  simp [bne, h]

theorem parseForest_render :
    ∀ (fuel : Nat) (fs : HForest) (rest : List Char),
      sizeF fs ≤ fuel → wfForest fs = true →
      (rest = [] ∨ ∃ r, rest = '<' :: '/' :: r) →
      parseForest fuel (renderForest fs ++ rest) = (fs, rest) := by
  intro fuel
  induction fuel with
  | zero =>
    intro fs rest hsz _ _
    exact absurd hsz (by have := sizeF_pos fs; omega)
  | succ f ih =>
    intro fs rest hsz hwf hrest
    cases fs with
    | nil =>
      rcases hrest with rfl | ⟨r, rfl⟩
      · rfl
      · rfl
    | cons n fs' =>
      simp only [wfForest, Bool.and_eq_true, Bool.not_eq_true'] at hwf
      obtain ⟨⟨hwn, hwf'⟩, hnadj⟩ := hwf
      cases n with
      | text s =>
        simp only [wfNode, Bool.and_eq_true, Bool.not_eq_true'] at hwn
        obtain ⟨hsne, hslt⟩ := hwn
        obtain ⟨s0, s', rfl⟩ : ∃ ch l, s = ch :: l := by
          cases s
          · simp at hsne
          · exact ⟨_, _, rfl⟩
        have hall : ∀ ch ∈ s0 :: s', (ch != '<') = true := List.all_eq_true.mp hslt
        have hs0 : (s0 == '<') = false := by
          have := hall s0 (List.mem_cons_self _ _)
          simpa [bne] using this
        have hys : renderForest fs' ++ rest = [] ∨
            ∃ y ys', renderForest fs' ++ rest = y :: ys' ∧ (y != '<') = false := by
          cases fs' with
          | nil =>
            rcases hrest with rfl | ⟨r, rfl⟩
            · left; rfl
            · right; exact ⟨'<', '/' :: r, rfl, by decide⟩
          | cons n' fs'' =>
            cases n' with
            | text s2 => simp [isText, headIsText] at hnadj
            | elem t2 a2 c2 =>
              right
              refine ⟨'<', (t2 ++ renderAttrs a2 ++ '>' ::
                (renderForest c2 ++ '<' :: '/' :: (t2 ++ ['>']))) ++
                (renderForest fs'' ++ rest), ?_, by decide⟩
              simp [renderForest, renderNode, List.append_assoc]
        have hspan := span_exact (p := fun ch => ch != '<')
          (renderForest fs' ++ rest) hall hys
        have hshape : renderForest (.cons (.text (s0 :: s')) fs') ++ rest =
            s0 :: (s' ++ (renderForest fs' ++ rest)) := by
          simp [renderForest, renderNode, List.append_assoc]
        rw [hshape]
        simp only [parseForest, hs0, Bool.false_eq_true, if_false]
        rw [show (s0 :: (s' ++ (renderForest fs' ++ rest))).takeWhile (fun ch => ch != '<') =
          ((s0 :: s') ++ (renderForest fs' ++ rest)).takeWhile (fun ch => ch != '<') from rfl,
          show (s0 :: (s' ++ (renderForest fs' ++ rest))).dropWhile (fun ch => ch != '<') =
          ((s0 :: s') ++ (renderForest fs' ++ rest)).dropWhile (fun ch => ch != '<') from rfl]
        rw [hspan.1, hspan.2]
        rw [ih fs' rest (by simp only [sizeF, sizeN] at hsz; omega) hwf' hrest]
      | elem t a c =>
        simp only [wfNode, Bool.and_eq_true, Bool.not_eq_true'] at hwn
        obtain ⟨⟨⟨htne, htall⟩, hwa⟩, hwc⟩ := hwn
        obtain ⟨t0, t', rfl⟩ : ∃ ch l, t = ch :: l := by
          cases t
          · simp at htne
          · exact ⟨_, _, rfl⟩
        have htall' : ∀ ch ∈ t0 :: t', (isTagChar ch && (ch.toLower == ch)) = true :=
          List.all_eq_true.mp htall
        have htags : ∀ ch ∈ t0 :: t', isTagChar ch = true := by
          intro ch hch
          have h2 := htall' ch hch
          simp only [Bool.and_eq_true] at h2
          exact h2.1
        have htlow : ∀ ch ∈ t0 :: t', (ch.toLower == ch) = true := by
          intro ch hch
          have h2 := htall' ch hch
          simp only [Bool.and_eq_true] at h2
          exact h2.2
        have ht0tag : isTagChar t0 = true := htags t0 (List.mem_cons_self _ _)
        have ht0slash : (t0 == '/') = false :=
          beq_false_of_pred ht0tag (by decide)
        have htgt : ∀ ch ∈ t0 :: t', (ch != '>') = true := by
          intro ch hch
          exact bne_true_of_beq_false (beq_false_of_pred (htags ch hch) (by decide))
        have hmap : (t0 :: t').map Char.toLower = t0 :: t' := map_toLower_id htlow
        have hszc : sizeF c ≤ f := by
          simp only [sizeF, sizeN] at hsz
          have := sizeF_pos fs'
          omega
        have hszf' : sizeF fs' ≤ f := by
          simp only [sizeF, sizeN] at hsz
          have := sizeF_pos c
          omega
        have hshape : renderForest (.cons (.elem (t0 :: t') a c) fs') ++ rest =
            '<' :: t0 :: (t' ++ (renderAttrs a ++ '>' ::
              (renderForest c ++ '<' :: '/' :: ((t0 :: t') ++ '>' ::
                (renderForest fs' ++ rest))))) := by
          simp [renderForest, renderNode, List.append_assoc]
        rw [hshape]
        simp only [parseForest, ht0slash, Bool.false_eq_true, if_false, ht0tag, if_true]
        have hysattr : ∃ y ys',
            renderAttrs a ++ '>' :: (renderForest c ++ '<' :: '/' :: ((t0 :: t') ++ '>' ::
              (renderForest fs' ++ rest))) = y :: ys' ∧ isTagChar y = false := by
          cases a with
          | nil => exact ⟨'>', _, rfl, by decide⟩
          | cons pr rest' =>
            obtain ⟨nn, vv⟩ := pr
            exact ⟨' ', _, rfl, by decide⟩
        have htspan := span_exact (p := isTagChar)
          (renderAttrs a ++ '>' :: (renderForest c ++ '<' :: '/' :: ((t0 :: t') ++ '>' ::
            (renderForest fs' ++ rest)))) htags (Or.inr hysattr)
        rw [show (t0 :: (t' ++ (renderAttrs a ++ '>' ::
              (renderForest c ++ '<' :: '/' :: ((t0 :: t') ++ '>' ::
                (renderForest fs' ++ rest)))))).takeWhile isTagChar =
          ((t0 :: t') ++ (renderAttrs a ++ '>' ::
              (renderForest c ++ '<' :: '/' :: ((t0 :: t') ++ '>' ::
                (renderForest fs' ++ rest))))).takeWhile isTagChar from rfl,
          show (t0 :: (t' ++ (renderAttrs a ++ '>' ::
              (renderForest c ++ '<' :: '/' :: ((t0 :: t') ++ '>' ::
                (renderForest fs' ++ rest)))))).dropWhile isTagChar =
          ((t0 :: t') ++ (renderAttrs a ++ '>' ::
              (renderForest c ++ '<' :: '/' :: ((t0 :: t') ++ '>' ::
                (renderForest fs' ++ rest))))).dropWhile isTagChar from rfl]
        rw [htspan.1, htspan.2, hmap]
        rw [parseAttrs_render a _ _
          (by
            have h1 := renderAttrs_length a
            simp [List.length_append]
            omega) hwa]
        simp only []
        rw [ih c _ hszc hwc (Or.inr ⟨_, rfl⟩)]
        simp only [consumeClose]
        have hclose := span_exact (p := fun ch => ch != '>')
          ('>' :: (renderForest fs' ++ rest)) htgt
          (Or.inr ⟨'>', _, rfl, by decide⟩)
        rw [show ((t0 :: t') ++ '>' :: (renderForest fs' ++ rest)).dropWhile (fun ch => ch != '>') =
          '>' :: (renderForest fs' ++ rest) from hclose.2]
        simp only [List.drop_succ_cons, List.drop_zero]
        rw [ih fs' rest hszf' hwf' hrest]
        simp

theorem sizeF_le_render :
    ∀ (N : Nat) (fs : HForest), sizeF fs ≤ N → wfForest fs = true →
      sizeF fs ≤ (renderForest fs).length + 1 := by
  intro N
  induction N with
  | zero =>
    intro fs hsz _
    exact absurd hsz (by have := sizeF_pos fs; omega)
  | succ N ih =>
    intro fs hsz hwf
    cases fs with
    | nil => simp [sizeF, renderForest]
    | cons n fs' =>
      simp only [wfForest, Bool.and_eq_true, Bool.not_eq_true'] at hwf
      obtain ⟨⟨hwn, hwf'⟩, _⟩ := hwf
      cases n with
      | text s =>
        simp only [wfNode, Bool.and_eq_true, Bool.not_eq_true'] at hwn
        obtain ⟨hsne, _⟩ := hwn
        obtain ⟨s0, s', rfl⟩ : ∃ ch l, s = ch :: l := by
          cases s
          · simp at hsne
          · exact ⟨_, _, rfl⟩
        have h1 : sizeF fs' ≤ N := by
          simp only [sizeF, sizeN] at hsz
          omega
        have h2 := ih fs' h1 hwf'
        simp only [sizeF, sizeN, renderForest, renderNode, List.length_append,
          List.length_cons] at h2 ⊢
        omega
      | elem t a c =>
        simp only [wfNode, Bool.and_eq_true, Bool.not_eq_true'] at hwn
        obtain ⟨⟨⟨_, _⟩, _⟩, hwc⟩ := hwn
        have hpc := sizeF_pos c
        have hpf := sizeF_pos fs'
        have h1 : sizeF fs' ≤ N := by
          simp only [sizeF, sizeN] at hsz
          omega
        have h2 : sizeF c ≤ N := by
          simp only [sizeF, sizeN] at hsz
          omega
        have h3 := ih fs' h1 hwf'
        have h4 := ih c h2 hwc
        simp only [sizeF, sizeN, renderForest, renderNode, List.length_append,
          List.length_cons] at h3 h4 ⊢
        omega

theorem parseHTML_render {fs : HForest} (hwf : wfForest fs = true) :
    parseHTML (renderForest fs) = fs := by
  unfold parseHTML
  have h := parseForest_render ((renderForest fs).length + 1) fs []
    (sizeF_le_render (sizeF fs) fs le_rfl hwf) hwf (Or.inl rfl)
  rw [List.append_nil] at h
  rw [h]

theorem mem_rootIdentifiedF_aux :
    ∀ (N : Nat) (fs : HForest), sizeF fs ≤ N →
      ∀ el ∈ rootIdentifiedF fs,
        ∃ t a c, el = HNode.elem t a c ∧ hasAttrKey a inkwellAttr = true := by
  intro N
  induction N with
  | zero =>
    intro fs hsz
    exact absurd hsz (by have := sizeF_pos fs; omega)
  | succ N ih =>
    intro fs hsz el hel
    cases fs with
    | nil => simp [rootIdentifiedF] at hel
    | cons n fs' =>
      have hszf' : sizeF fs' ≤ N := by
        have := sizeN_pos n
        simp only [sizeF] at hsz
        omega
      cases n with
      | text s =>
        simp only [rootIdentifiedF, rootIdentifiedN, List.nil_append] at hel
        exact ih fs' hszf' el hel
      | elem t a c =>
        have hszc : sizeF c ≤ N := by
          have := sizeF_pos fs'
          simp only [sizeF, sizeN] at hsz
          omega
        simp only [rootIdentifiedF, rootIdentifiedN] at hel
        split at hel
        · next hattr =>
          simp only [List.cons_append, List.nil_append, List.mem_cons] at hel
          rcases hel with rfl | hel
          · exact ⟨t, a, c, rfl, hattr⟩
          · exact ih fs' hszf' el hel
        · rw [List.mem_append] at hel
          rcases hel with hel | hel
          · exact ih c hszc el hel
          · exact ih fs' hszf' el hel

theorem mem_rootIdentifiedF {fs : HForest} {el : HNode}
    (h : el ∈ rootIdentifiedF fs) :
    ∃ t a c, el = HNode.elem t a c ∧ hasAttrKey a inkwellAttr = true :=
  mem_rootIdentifiedF_aux (sizeF fs) fs le_rfl el h

theorem mem_buildComponents (gen : Nat → String) (now : Nat) :
    ∀ (els : List HNode) (k : Nat) (f : Component),
      f ∈ buildComponents gen now els k →
      (∀ el ∈ els, idValOf el ≠ []) →
      ∃ t a c v, HNode.elem t a c ∈ els ∧ getAttrL a inkwellAttr = some v ∧
        f.id = v.asString ∧ f.code = (renderNode (HNode.elem t a c)).asString := by
  intro els
  induction els with
  | nil =>
    intro k f hf _
    simp [buildComponents] at hf
  | cons el rest ih =>
    intro k f hf hvals
    cases el with
    | text s =>
      have h0 := hvals _ (List.mem_cons_self _ _)
      simp [idValOf] at h0
    | elem t a c =>
      have hid := hvals _ (List.mem_cons_self _ _)
      simp only [idValOf] at hid
      cases hga : getAttrL a inkwellAttr with
      | none => rw [hga] at hid; simp at hid
      | some v =>
        rw [hga] at hid
        simp only [Option.getD_some] at hid
        have hv : v.isEmpty = false := by
          cases v
          · exact absurd rfl hid
          · rfl
        simp only [buildComponents, hga, hv, Bool.false_eq_true, if_false,
          List.mem_cons] at hf
        rcases hf with rfl | hf
        · exact ⟨t, a, c, v, List.mem_cons_self _ _, hga, rfl, rfl⟩
        · obtain ⟨t', a', c', v', hmem, hga', hid', hcode'⟩ :=
            ih k f hf (fun e he => hvals e (List.mem_cons_of_mem _ he))
          exact ⟨t', a', c', v', List.mem_cons_of_mem _ hmem, hga', hid', hcode'⟩

theorem buildComponents_ne_nil (gen : Nat → String) (now : Nat)
    {els : List HNode} {k : Nat} (hne : els ≠ [])
    (hel : ∀ el ∈ els, ∃ t a c, el = HNode.elem t a c) :
    buildComponents gen now els k ≠ [] := by
  cases els with
  | nil => exact absurd rfl hne
  | cons el rest =>
    obtain ⟨t, a, c, rfl⟩ := hel _ (List.mem_cons_self _ _)
    simp [buildComponents]

set_option maxRecDepth 4000 in
/-- C5 counterexample: on plain-text input `decomposeJSX` returns the
synthesized error-fallback component, whose content carries no identity
attribute at all — re-parsing it does not yield a root element whose
identity equals the component's (freshly generated) id. -/
theorem c5_counterexample :
    decomposeJSX cgen 0 "only plain text" = [errorComponent "fresh1" 0] ∧
    reparseRootId (errorComponent "fresh1" 0).code = none ∧
    (errorComponent "fresh1" 0).id = "fresh1" := by
  refine ⟨rfl, ?_, rfl⟩
  rfl

/-- C5 amended: for every Component emitted for a root-level identified
element (the synthesized fallback Components excepted), re-parsing the
component's code yields a single root element whose `data-inkwell-id`
equals the component's id — provided the identified elements carry
non-empty identity values and parse to serializable trees. -/
theorem c5_amended_roundtrip (gen : Nat → String) (now : Nat) (raw : String)
    (w : List Char) (f : Component)
    (hw : workingMarkup raw = some w)
    (hroots : rootIdentifiedF (parseHTML w) ≠ [])
    (hvals : ∀ el ∈ rootIdentifiedF (parseHTML w), idValOf el ≠ [])
    (hwfel : ∀ el ∈ rootIdentifiedF (parseHTML w), wfNode el = true)
    (hf : f ∈ decomposeJSX gen now raw) :
    reparseRootId f.code = some f.id := by
  have hbne : buildComponents gen now (rootIdentifiedF (parseHTML w)) 0 ≠ [] :=
    buildComponents_ne_nil gen now hroots (fun el hel => by
      obtain ⟨t, a, c, heq, _⟩ := mem_rootIdentifiedF hel
      exact ⟨t, a, c, heq⟩)
  simp only [decomposeJSX, hw] at hf
  rw [if_neg (by simpa [List.isEmpty_iff] using hbne)] at hf
  obtain ⟨t, a, c, v, hmem, hga, hid, hcode⟩ :=
    mem_buildComponents gen now _ 0 f hf hvals
  have hwfe := hwfel _ hmem
  have hone : parseHTML (renderNode (HNode.elem t a c)) =
      HForest.cons (HNode.elem t a c) HForest.nil := by
    have hts : renderForest (HForest.cons (HNode.elem t a c) HForest.nil) =
        renderNode (HNode.elem t a c) := by
      simp [renderForest]
    have hwff : wfForest (HForest.cons (HNode.elem t a c) HForest.nil) = true := by
      simp [wfForest, isText, headIsText, hwfe]
    rw [← hts]
    exact parseHTML_render hwff
  have hdata : f.code.data = renderNode (HNode.elem t a c) := by
    rw [hcode]
    exact List.toList_asString _
  simp only [reparseRootId, hdata, hone, hga, hid]
  rfl

theorem c5_amended_witness :
    reparseRootId
        ({ id := "a1", name := "Div", code := scenarioAOuter,
           elementType := "div", lastUpdated := 0 } : Component).code =
      some ({ id := "a1", name := "Div", code := scenarioAOuter,
              elementType := "div", lastUpdated := 0 } : Component).id :=
  c5_amended_roundtrip cgen 0 scenarioA scenarioAOuter.data
    { id := "a1", name := "Div", code := scenarioAOuter,
      elementType := "div", lastUpdated := 0 }
    (by decide)
    (by
      intro h
      exact absurd (congrArg List.length h) (by decide))
    (by decide) (by decide) (by decide)

/-- C9 (code bug): the style-preservation merge of the patch route is dead
code.  cheerio's HTML parse stores the prior class under the lower-cased
key `classname`, while steps 3 and 7 look up the camelCase key
`className` with a case-sensitive lookup: on Scenario B's owner fragment
the prior value `font-bold` is present in the parsed markup, yet
`preservedClassName` is `undefined`, no prior-then-new merge happens, the
route's computed replacement content keeps only the new class, and the
successful patch result contains the merged value nowhere — against the
spec's explicit style-preservation policy (§4.4) and the route's own
system prompt. -/
theorem c9_class_preservation_dead :
    (∃ el ∈ nestedSelection ownerWithClass "a2",
      nodeAttr el "classname".data = some "font-bold".data) ∧
    extractPreserved ownerWithClass "a2" = none ∧
    applyPreserve (extractPreserved ownerWithClass "a2") "a2" spanPatchNew =
      spanPatchNew ∧
    jsIncludes spanPatchNew "font-bold" = false ∧
    resultComponents (POST cgen 5 "tok" "p9" "a2" "make it red" (some projC9)
      spanPatchNew) = some [ownerComp9] ∧
    jsIncludes ownerWithClass "font-bold text-red-500" = false := by
  refine ⟨by decide, rfl, rfl, by decide, rfl, by decide⟩

theorem c10_witness :
    jsIncludes (assembleJSX projC1) "function GeneratedUI()" = true ∧
    POST cgen 5 "tok" "p1" "a1" "edit" (some projC1) patchA1New ≠
      ApiResult.err 500 "Generated code is invalid" :=
  ⟨c10_assembly_marker_invalid_unreachable.1 projC1,
   c10_assembly_marker_invalid_unreachable.2 cgen 5 "tok" "p1" "a1" "edit"
     patchA1New (some projC1)⟩

end Inkwell
